import Mathlib

/-!
Verification of the 6g-articles-app weekly-search pipeline
(`backend/searcher.py`): source adapters, deduplication, relevance
scoring, backup, recency-window selection and Unpaywall link enrichment.

Python strings are modelled as `List Char`, calendar dates as `Int`
ordinals (one unit per day, so `now - timedelta(days=365)` becomes
`now - 365`), and Python exceptions as `Except PyExc`.
-/

/-- A Python exception, classified the way the retry policy classifies it:
`requests.exceptions.HTTPError` versus every other exception type. -/
inductive PyExc where
  | httpError
  | otherError
deriving DecidableEq, Repr

/-- Result of running a piece of Python code: a value, or a raised exception. -/
abbrev PyResult (α : Type) := Except PyExc α

/-- Model of a Python `try: ... except Exception: return []`-style handler
around a body returning a list: every exception is swallowed and the
handler's value is returned, so the caller always sees a normal return. -/
def pyTryAll {α : Type} (body : PyResult α) (handler : α) : PyResult α :=
  match body with
  | .ok v => .ok v
  | .error _ => .ok handler

/-- Python `a or b` on two strings: `b` when `a` is falsy (empty), else `a`. -/
def pyOr (a b : List Char) : List Char :=
  if a = [] then b else a

/-- Python `_safe_str(val)`: `''` for `None`, the string itself otherwise
(`backend/searcher.py`, `_safe_str`). -/
def safeStr : Option (List Char) → List Char
  | none => []
  | some s => s

/-- Character-wise lower-casing, modelling Python `str.lower()` on the
ASCII strings this program handles. -/
def lowerStr (s : List Char) : List Char := s.map Char.toLower

/-- Substring containment, modelling Python's `needle in hay` on strings. -/
def isSubstr (needle hay : List Char) : Bool := decide (needle <:+: hay)

/-- Helper for `pySplit`: accumulates the current (reversed) word. -/
def pySplitAux (cur : List Char) : List Char → List (List Char)
  | [] => if cur = [] then [] else [cur.reverse]
  | c :: rest =>
    if c.isWhitespace then
      if cur = [] then pySplitAux [] rest else cur.reverse :: pySplitAux [] rest
    else
      pySplitAux (c :: cur) rest

/-- Python `str.split()` with no argument: split on whitespace runs,
producing no empty words. -/
def pySplit (s : List Char) : List (List Char) := pySplitAux [] s

/-- Suffix of `s` after the last `'/'` (the whole of `s` when it has no
slash), modelling Python `s.split('/')[-1]`. -/
def afterLastSlash (s : List Char) : List Char :=
  (s.reverse.takeWhile (fun c => c ≠ '/')).reverse

/-- Python `s.split('abs/')`: the parts of `s` between non-overlapping
occurrences of `"abs/"`, scanning left to right. -/
def splitOnAbs : List Char → List (List Char)
  | 'a' :: 'b' :: 's' :: '/' :: rest => [] :: splitOnAbs rest
  | c :: rest =>
    match splitOnAbs rest with
    | [] => [[c]]
    | p :: ps => (c :: p) :: ps
  | [] => [[]]

/-- Python `s.split('abs/')[-1]`: the part after the last `"abs/"`. -/
def afterLastAbs (s : List Char) : List Char := (splitOnAbs s).getLastD []

/-- One normalized scholarly record, as built by every source adapter
(`title`, `authors`, `publish_date`, `link`, `full_text` dict keys). -/
structure Candidate where
  title : List Char
  authors : List Char
  publish_date : Option Int
  link : List Char
  full_text : List Char
deriving DecidableEq, Repr

/-- The dedup identity of a candidate: the `(title, link)` pair
(`weekly_search`, `key = (a.get('title', ''), a.get('link', ''))`). -/
def keyOf (a : Candidate) : List Char × List Char := (a.title, a.link)

/-- The literal truncation marker appended to over-long author strings. -/
def etAlMarker : List Char := (" ... et al.").toList

/-- The author-string cap shared by every adapter:
`if len(authors) > 1000: authors = authors[:950] + ' ... et al.'`. -/
def capAuthors (s : List Char) : List Char :=
  if 1000 < s.length then s.take 950 ++ etAlMarker else s

/-- Python `', '.join(names)`. -/
def joinAuthors (names : List (List Char)) : List Char :=
  List.intercalate (", ").toList names

/-- The fixed 6G keyword vocabulary (`G6_KEYWORDS` in `backend/searcher.py`). -/
def G6_KEYWORDS : List (List Char) :=
  [ ("6G wireless communication").toList
  , ("6G terahertz communication").toList
  , ("6G ultra-massive MIMO").toList
  , ("6G integrated sensing and communication").toList
  , ("6G quantum communication").toList
  , ("6G AI-native networks").toList
  , ("6G holographic connectivity").toList
  , ("6G ultra-reliable low latency").toList
  , ("6G machine learning").toList
  , ("6G edge computing").toList ]

/-- The scorer's search text: `text = title + ' ' + full_text` with both
parts lower-cased (`calculate_relevance`). -/
def candText (a : Candidate) : List Char :=
  lowerStr a.title ++ ' ' :: lowerStr a.full_text

/-- Whether any constituent word of keyword `kw` occurs in `text`
(the inner `for w in kw_words: if w in text: ...; break` loop). -/
def wordHit (text : List Char) (kw : List Char) : Bool :=
  (pySplit (lowerStr kw)).any (fun w => isSubstr w text)

/-- Model of `calculate_relevance` from `backend/searcher.py`: one point per keyword
any of whose words occurs in the concatenated lower-cased text (at most
once per keyword), plus three points per keyword phrase occurring
verbatim in the lower-cased title. -/
def calculate_relevance (a : Candidate) : Nat :=
  let title := lowerStr a.title
  let text := candText a
  (G6_KEYWORDS.foldl (fun s kw => if wordHit text kw then s + 1 else s) 0)
    + (G6_KEYWORDS.foldl (fun s kw => if isSubstr (lowerStr kw) title then s + 3 else s) 0)

/-- The per-keyword contribution the spec describes: the word-match point
plus the verbatim-title bonus for one keyword. -/
def kwContribution (a : Candidate) (kw : List Char) : Nat :=
  (if wordHit (candText a) kw then 1 else 0)
    + (if isSubstr (lowerStr kw) (lowerStr a.title) then 3 else 0)

/-- The dedup loop of `weekly_search` with its `seen` set made explicit:
skip a candidate whose `(title, link)` key was already seen, otherwise
keep it and record its key. -/
def dedupAux (seen : List (List Char × List Char)) : List Candidate → List Candidate
  | [] => []
  | a :: rest =>
    if keyOf a ∈ seen then dedupAux seen rest
    else a :: dedupAux (keyOf a :: seen) rest

/-- The deduplication step of `weekly_search`: first occurrence of each
`(title, link)` key wins, later duplicates are discarded. -/
def dedup (l : List Candidate) : List Candidate := dedupAux [] l

/-- Modelled from the spec's words for comparison with `dedup`: keep each
element exactly when its key has no earlier occurrence, i.e. keep the
head and recurse on the tail with all later duplicates of the head
removed. -/
def firstOccurrences : List Candidate → List Candidate
  | [] => []
  | a :: rest =>
    a :: firstOccurrences (rest.filter (fun b => decide (keyOf b ≠ keyOf a)))
termination_by l => l.length
decreasing_by
  simp only [List.length_cons]
  exact Nat.lt_succ_of_le (List.length_filter_le _ _)

/-- A unique candidate carrying the `relevance_score` attached to it by the
dedup loop (`a['relevance_score'] = calculate_relevance(a)`). -/
structure Scored where
  cand : Candidate
  relevance_score : Nat
deriving DecidableEq, Repr

/-- Insert into a descending-score list, after every element whose score is
strictly larger and before the first other one, so that an element
inserted for an earlier original position stays before equal scores. -/
def insertDesc (x : Scored) : List Scored → List Scored
  | [] => [x]
  | y :: ys =>
    if x.relevance_score < y.relevance_score then y :: insertDesc x ys
    else x :: y :: ys

/-- Stable sort by strictly descending `relevance_score`, modelling Python's
stable `older.sort(key=lambda x: x['relevance_score'], reverse=True)`
(any stable sort is extensionally unique; stability is proved below). -/
def sortDesc : List Scored → List Scored
  | [] => []
  | x :: xs => insertDesc x (sortDesc xs)

/-- The recency test of `weekly_search`:
`a.get('publish_date') and a['publish_date'] >= recent_cutoff.date()`
with `recent_cutoff = now - timedelta(days=365)`. -/
def isRecent (now : Int) (s : Scored) : Bool :=
  match s.cand.publish_date with
  | none => false
  | some d => decide (now - 365 ≤ d)

/-- The older-pool test of `weekly_search`: has a date and it is strictly
before the 365-day cutoff. -/
def isOlder (now : Int) (s : Scored) : Bool :=
  match s.cand.publish_date with
  | none => false
  | some d => decide (d < now - 365)

/-- The selection step of `weekly_search` (quota 50, window 365 days):
keep the first 50 recent candidates, and when fewer than 50 are recent,
fill from the dated-but-older pool sorted by descending score. -/
def weeklySelect (unique : List Scored) (now : Int) : List Scored :=
  let recent := unique.filter (isRecent now)
  if recent.length < 50 then
    let older := sortDesc (unique.filter (isOlder now))
    recent ++ older.take (50 - recent.length)
  else
    recent.take 50

/-- Outcome of one Unpaywall lookup: the request raised, or an HTTP status
arrived whose JSON body either fails to yield data (any shape error) or
yields the `best_oa_location.url_for_pdf` field (absent → `none`). -/
inductive UnpaywallOutcome where
  | netError
  | status (code : Nat) (body : Except Unit (Option (List Char)))

/-- One step of `unpaywall_enrich`: for an arxiv-looking link with a
non-empty extracted identifier, replace the link by the resolved
open-access PDF URL on a 200 response carrying a truthy `url_for_pdf`;
keep the candidate untouched in every other case. -/
def enrichOne (oracle : List Char → UnpaywallOutcome) (s : Scored) : Scored :=
  if ("arxiv").toList <:+: s.cand.link ∧ afterLastAbs s.cand.link ≠ [] then
    match oracle (afterLastAbs s.cand.link) with
    | .netError => s
    | .status code body =>
      if code = 200 then
        match body with
        | .error _ => s
        | .ok none => s
        | .ok (some oa) =>
          if oa = [] then s else { s with cand := { s.cand with link := oa } }
      else s
  else s

/-- Model of `unpaywall_enrich` from `backend/searcher.py`: best-effort link upgrade
applied to every candidate in order, never dropping one. -/
def unpaywall_enrich (oracle : List Char → UnpaywallOutcome) (l : List Scored) : List Scored :=
  l.map (enrichOne oracle)

/-- What one run of the backup-and-select tail of `weekly_search` produces:
the serialized backup set and the returned selection. -/
structure RunResult where
  backup : List Scored
  returned : List Scored
deriving DecidableEq

/-- The tail of `weekly_search` after aggregation: dedup and score the
aggregated list, write the full unique set to the backup artifact, then
select by recency window and enrich links. `all_articles` is the
aggregated candidate list and `now` the run time. -/
def weekly_core (oracle : List Char → UnpaywallOutcome)
    (all_articles : List Candidate) (now : Int) : RunResult :=
  let unique := (dedup all_articles).map (fun a => ⟨a, calculate_relevance a⟩)
  { backup := unique
  , returned := unpaywall_enrich oracle (weeklySelect unique now) }

/-- Outcome of one `requests.get` call: the request itself raised (network
error, timeout), or an HTTP response arrived with a status code and a
payload whose JSON decoding either fails (malformed body) or yields a
source-specific payload `ρ`. -/
inductive HttpOutcome (ρ : Type) where
  | netError
  | status (code : Nat) (body : Except Unit ρ)

/-- The tenacity `@retry(stop=stop_after_attempt(cap), retry=retry_if_exception_type(HTTPError))`
wrapper on a deterministic call result `r`: re-invoke while the call
raises an `HTTPError` and attempts remain, pass any other outcome
through; returns the final result and the number of attempts made. -/
def tenacityGo {α : Type} (r : PyResult α) : Nat → Nat → PyResult α × Nat
  | 0, used => (r, used)
  | 1, used => (r, used)
  | n + 2, used =>
    match r with
    | .ok v => (.ok v, used)
    | .error .httpError => tenacityGo r (n + 1) (used + 1)
    | .error e => (.error e, used)

/-- A tenacity-decorated call with attempt cap `cap` on a deterministic
per-attempt result `r`. -/
def tenacityCall {α : Type} (cap : Nat) (r : PyResult α) : PyResult α × Nat :=
  tenacityGo r cap 1

/-- Outcome of a Python `datetime.strptime` call on one date string: a
parsed date or a `ValueError`. -/
inductive StrpOutcome where
  | parsed (d : Int)
  | malformed

/-- One raw arXiv library result (`r` in `arxiv_search`): the fields the
adapter reads. `title`/`summary` are `none` when the library yields no
value (then `_safe_str` coerces to the empty string). -/
structure ArxivRec where
  title : Option (List Char)
  authors : List (List Char)
  published : Option Int
  entry_id : List Char
  summary : Option (List Char)
deriving DecidableEq

/-- The per-record normalizer of `arxiv_search`: join and cap authors,
safe-coerce title and summary, rebuild the abstract link from the entry
id; no record is ever dropped. -/
def arxivNormalizeOne (r : ArxivRec) : Candidate :=
  { title := safeStr r.title
  , authors := capAuthors (joinAuthors r.authors)
  , publish_date := r.published
  , link := ("http://arxiv.org/abs/").toList ++ afterLastSlash r.entry_id
  , full_text := safeStr r.summary }

/-- The result-list loop of `arxiv_search`. -/
def arxivParse (rs : List ArxivRec) : List Candidate := rs.map arxivNormalizeOne

/-- The body of `arxiv_search` inside its `try`: the arxiv client call
either raises or yields a result list, which is then normalized. -/
def arxiv_body (o : Except Unit (List ArxivRec)) : PyResult (List Candidate) :=
  match o with
  | .error _ => .error .otherError
  | .ok rs => .ok (arxivParse rs)

/-- Model of `arxiv_search`: the body wrapped in `except Exception: return []`. -/
def arxiv_fetch (o : Except Unit (List ArxivRec)) : PyResult (List Candidate) :=
  pyTryAll (arxiv_body o) []

/-- One Semantic Scholar paper record (`p` in `semantic_search`). -/
structure SemRec where
  title : Option (List Char)
  authors : List (List Char)
  publicationDate : Option StrpOutcome
  url : Option (List Char)
  abstract : Option (List Char)

/-- The per-record normalizer of `semantic_search`; a malformed
`publicationDate` makes `strptime` raise, aborting the whole loop. -/
def semanticNormalizeOne (r : SemRec) : PyResult Candidate :=
  match r.publicationDate with
  | some .malformed => .error .otherError
  | d =>
    .ok { title := safeStr r.title
        , authors := capAuthors (joinAuthors r.authors)
        , publish_date := match d with | some (.parsed i) => some i | _ => none
        , link := r.url.getD []
        , full_text := safeStr r.abstract }

/-- The result loop of `semantic_search`: accumulates candidates until some
record raises, in which case the exception propagates (and the partial
list is lost to the adapter's catch-all handler). -/
def semanticParse : List SemRec → PyResult (List Candidate)
  | [] => .ok []
  | r :: rs =>
    match semanticNormalizeOne r with
    | .error e => .error e
    | .ok c =>
      match semanticParse rs with
      | .error e => .error e
      | .ok cs => .ok (c :: cs)

/-- The body of `semantic_search` inside its `try`: a 429 returns an empty
list directly without raising, any other error status raises `HTTPError` via
`raise_for_status`, a malformed JSON body raises, and otherwise the
payload is parsed. -/
def semantic_body (o : HttpOutcome (List SemRec)) : PyResult (List Candidate) :=
  match o with
  | .netError => .error .otherError
  | .status code body =>
    if code = 429 then .ok []
    else if 400 ≤ code then .error .httpError
    else
      match body with
      | .error _ => .error .otherError
      | .ok p => semanticParse p

/-- Model of `semantic_search`: catch-all handler inside, tenacity cap 3 outside.
Returns the caller-visible result and the number of attempts made. -/
def semantic_fetch (o : HttpOutcome (List SemRec)) : PyResult (List Candidate) × Nat :=
  tenacityCall 3 (pyTryAll (semantic_body o) [])

/-- One entry of a CORE `authors` list: a dict carrying a `name`, a plain
string, or anything else. -/
inductive CoreAuthor where
  | named (name : List Char)
  | plain (s : List Char)
  | other

/-- Outcome of parsing a CORE `publishedDate` string: full timestamp
format, date-only fallback format, or neither. -/
inductive CoreDate where
  | fullTs (d : Int)
  | dateOnly (d : Int)
  | bad

/-- One CORE work item (`item` in `core_search`). `title` is `none` when
the key is absent (then `get` yields the sentinel); `publishedDate` is
`none` when absent or falsy. -/
structure CoreRec where
  title : Option (List Char)
  authors : List CoreAuthor
  publishedDate : Option CoreDate
  downloadUrl : Option (List Char)
  doi : Option (List Char)
  abstract : Option (List Char)

/-- The sentinel `'No title available'` used by `core_search` (and the
ScienceDirect/Crossref adapters) as the missing-title default. -/
def noTitleSentinel : List Char := ("No title available").toList

/-- The author extraction of `core_search`: join the non-empty `name`
fields of dict entries, falling back to the plain-string entries when
that join is empty. -/
def coreAuthors (l : List CoreAuthor) : List Char :=
  let named := joinAuthors (l.filterMap (fun a =>
    match a with
    | .named n => if n = [] then none else some n
    | _ => none))
  if named = [] then
    joinAuthors (l.filterMap (fun a =>
      match a with
      | .plain s => some s
      | _ => none))
  else named

/-- The link fallback chain of `core_search`:
`item.get('downloadUrl') or item.get('doi') or 'https://core.ac.uk'`. -/
def coreLink (r : CoreRec) : List Char :=
  pyOr (r.downloadUrl.getD []) (pyOr (r.doi.getD []) ("https://core.ac.uk").toList)

/-- The per-record normalizer of `core_search`: drop the record exactly
when its title lookup returns the missing-title sentinel; otherwise
emit it with capped authors, the two-format date parse (bad dates give
`None`, not an error) and the link fallback chain. -/
def coreNormalizeOne (r : CoreRec) : Option Candidate :=
  let title := r.title.getD noTitleSentinel
  if title = noTitleSentinel then none
  else
    some { title := title
         , authors := capAuthors (coreAuthors r.authors)
         , publish_date :=
             match r.publishedDate with
             | some (.fullTs d) => some d
             | some (.dateOnly d) => some d
             | _ => none
         , link := coreLink r
         , full_text := safeStr r.abstract }

/-- The result loop of `core_search` (never raises). -/
def coreParse (rs : List CoreRec) : List Candidate := rs.filterMap coreNormalizeOne

/-- The body of `core_search` inside its `try`: a 429 deliberately raises
`HTTPError("429")`, any other error status raises via
`raise_for_status`, a malformed JSON body raises, and otherwise the
payload is parsed. -/
def core_body (o : HttpOutcome (List CoreRec)) : PyResult (List Candidate) :=
  match o with
  | .netError => .error .otherError
  | .status code body =>
    if code = 429 then .error .httpError
    else if 400 ≤ code then .error .httpError
    else
      match body with
      | .error _ => .error .otherError
      | .ok p => .ok (coreParse p)

/-- Model of `core_search`: catch-all handler inside the function, tenacity cap 5
outside it. Returns the caller-visible result and the attempt count. -/
def core_fetch (o : HttpOutcome (List CoreRec)) : PyResult (List Candidate) × Nat :=
  tenacityCall 5 (pyTryAll (core_body o) [])

/-- One ScienceDirect entry (`item` in `sciencedirect_search`). `href1`
models `item.get('link', [{}])[1].get('href', ...)`: an error when the
`link` list is too short for index 1, otherwise the optional `href`. -/
structure SDRec where
  title : Option (List Char)
  creators : List (List Char)
  coverDate : Option StrpOutcome
  doi : Option (List Char)
  href1 : Except Unit (Option (List Char))
  description : Option (List Char)

/-- The link expression of `sciencedirect_search`: `prism:doi` when truthy,
else the second `link` entry's `href` (which may raise) with the
site homepage as default. -/
def sdLink (r : SDRec) : PyResult (List Char) :=
  if r.doi.getD [] = [] then
    match r.href1 with
    | .error _ => .error .otherError
    | .ok h => .ok (match h with | some u => u | none => ("https://sciencedirect.com").toList)
  else .ok (r.doi.getD [])

/-- The per-record normalizer of `sciencedirect_search`: sentinel titles
are dropped, a bad cover date becomes `None`, and the link expression
may raise (aborting the whole adapter). -/
def sdNormalizeOne (r : SDRec) : PyResult (Option Candidate) :=
  if r.title.getD noTitleSentinel = noTitleSentinel then .ok none
  else
    match sdLink r with
    | .error e => .error e
    | .ok link =>
      .ok (some { title := r.title.getD noTitleSentinel
                , authors := capAuthors (joinAuthors r.creators)
                , publish_date :=
                    match r.coverDate with
                    | some (.parsed d) => some d
                    | _ => none
                , link := link
                , full_text := safeStr r.description })

/-- The result loop of `sciencedirect_search`: skip dropped records,
propagate a raising record. -/
def sdParse : List SDRec → PyResult (List Candidate)
  | [] => .ok []
  | r :: rs =>
    match sdNormalizeOne r with
    | .error e => .error e
    | .ok c? =>
      match sdParse rs with
      | .error e => .error e
      | .ok cs => .ok (match c? with | some c => c :: cs | none => cs)

/-- The body of `sciencedirect_search` inside its `try` (the missing-key
early return happens outside the `try` and is modelled in `sd_fetch`):
429 deliberately raises `HTTPError`, other error statuses raise via
`raise_for_status`, malformed JSON raises, otherwise parse. -/
def sd_body (o : HttpOutcome (List SDRec)) : PyResult (List Candidate) :=
  match o with
  | .netError => .error .otherError
  | .status code body =>
    if code = 429 then .error .httpError
    else if 400 ≤ code then .error .httpError
    else
      match body with
      | .error _ => .error .otherError
      | .ok p => sdParse p

/-- Model of `sciencedirect_search`: with no API key the function returns `[]`
before its `try`; otherwise catch-all inside, tenacity cap 5 outside. -/
def sd_fetch (hasKey : Bool) (o : HttpOutcome (List SDRec)) :
    PyResult (List Candidate) × Nat :=
  tenacityCall 5 (if hasKey then pyTryAll (sd_body o) [] else .ok [])

/-- One Crossref author dict: optional `family` and `given` names. -/
structure CRAuthor where
  family : Option (List Char)
  given : Option (List Char)

/-- One Crossref item (`item` in `crossref_search`). `titleField` models
the `title` key: absent (`none`, `get` defaults to the sentinel list)
or a list of title strings. `year` models
`item.get('published', {}).get('date-parts', [[None]])[0][0]` together
with the always-succeeding `strptime(str(pub_year), '%Y')`, as the date
ordinal of January 1 of that year. -/
structure CRRec where
  titleField : Option (List (List Char))
  authors : List CRAuthor
  year : Option Int
  url : Option (List Char)
  abstract : Option (List Char)

/-- Python `str.strip()`: drop whitespace from both ends. -/
def pyStrip (s : List Char) : List Char :=
  ((s.dropWhile Char.isWhitespace).reverse.dropWhile Char.isWhitespace).reverse

/-- The title expression of `crossref_search`: first element of the title
list, with the sentinel for an absent or empty list. -/
def crTitle (r : CRRec) : List Char :=
  match r.titleField with
  | none => noTitleSentinel
  | some [] => noTitleSentinel
  | some (t :: _) => t

/-- The author extraction of `crossref_search`: join
`f"{family} {given}".strip()` over the authors that have a truthy
`family`. -/
def crAuthors (l : List CRAuthor) : List Char :=
  joinAuthors ((l.filter (fun a => decide (a.family.getD [] ≠ []))).map
    (fun a => pyStrip (a.family.getD [] ++ ' ' :: a.given.getD [])))

/-- The per-record normalizer of `crossref_search`: sentinel titles are
dropped, everything else is emitted. -/
def crNormalizeOne (r : CRRec) : Option Candidate :=
  if crTitle r = noTitleSentinel then none
  else
    some { title := crTitle r
         , authors := capAuthors (crAuthors r.authors)
         , publish_date := r.year
         , link := r.url.getD ("https://crossref.org").toList
         , full_text := safeStr r.abstract }

/-- The result loop of `crossref_search` (never raises). -/
def crParse (rs : List CRRec) : List Candidate := rs.filterMap crNormalizeOne

/-- The body of `crossref_search` inside its `try`: no 429 special case and
no retry decorator; error statuses raise via `raise_for_status`,
malformed JSON raises, otherwise parse. -/
def crossref_body (o : HttpOutcome (List CRRec)) : PyResult (List Candidate) :=
  match o with
  | .netError => .error .otherError
  | .status code body =>
    if 400 ≤ code then .error .httpError
    else
      match body with
      | .error _ => .error .otherError
      | .ok p => .ok (crParse p)

/-- Model of `crossref_search`: the body wrapped in `except Exception: return []`. -/
def crossref_fetch (o : HttpOutcome (List CRRec)) : PyResult (List Candidate) :=
  pyTryAll (crossref_body o) []

/-- The `bib` dict of one Google Scholar result. -/
structure ScholBib where
  author : List (List Char)
  title : Option (List Char)
  pub_year : Option StrpOutcome

/-- One Google Scholar result (`res` in `scholarly_search`); `bib = none`
models a result without a `bib` key, whose direct indexing raises. -/
structure ScholRec where
  bib : Option ScholBib
  eprinturl : Option (List Char)
  pub_url : Option (List Char)
  abstract : Option (List Char)

/-- The per-record body of `scholarly_search`'s inner `try`: a missing
`bib` or a malformed `pub_year` raises (the record is then skipped). -/
def scholarlyNormalizeOne (r : ScholRec) : PyResult Candidate :=
  match r.bib with
  | none => .error .otherError
  | some b =>
    match b.pub_year with
    | some .malformed => .error .otherError
    | y =>
      .ok { title := safeStr b.title
          , authors := capAuthors (joinAuthors b.author)
          , publish_date := match y with | some (.parsed d) => some d | _ => none
          , link := pyOr (r.eprinturl.getD []) (r.pub_url.getD [])
          , full_text := safeStr r.abstract }

/-- The result loop of `scholarly_search`: stop after `maxr` results, skip
any record whose build raises (`except: continue`). -/
def scholarlyParse (maxr : Nat) (rs : List ScholRec) : List Candidate :=
  (rs.take maxr).foldr
    (fun r acc =>
      match scholarlyNormalizeOne r with
      | .ok c => c :: acc
      | .error _ => acc)
    []

/-- The body of `scholarly_search` inside its outer `try`: the scholarly
iterator either raises (losing any partial list) or yields results. -/
def scholarly_body (maxr : Nat) (o : Except Unit (List ScholRec)) :
    PyResult (List Candidate) :=
  match o with
  | .error _ => .error .otherError
  | .ok rs => .ok (scholarlyParse maxr rs)

/-- Model of `scholarly_search`: the body wrapped in `except Exception: return []`. -/
def scholarly_fetch (maxr : Nat) (o : Except Unit (List ScholRec)) :
    PyResult (List Candidate) :=
  pyTryAll (scholarly_body maxr o) []

/-- A concrete candidate whose title contains the first vocabulary keyword
verbatim, used as a test input. -/
def sampleTitled : Candidate :=
  ⟨("6G wireless communication advances").toList, [], none, [], []⟩

/-- A concrete Unpaywall oracle that always resolves to one PDF URL. -/
def sampleOracle : List Char → UnpaywallOutcome :=
  fun _ => .status 200 (.ok (some ("http://x/pdf").toList))

/-- A concrete recent arxiv-linked scored candidate, used as a test input. -/
def sampleArxiv : Scored :=
  ⟨⟨('T' :: []), [], some 1000, ("http://arxiv.org/abs/1").toList, []⟩, 0⟩

/-- A concrete CORE record with a present title, used as a test input. -/
def coreTitledRec : CoreRec := ⟨some ('T' :: []), [], none, none, none, none⟩

/-- A concrete recent scored candidate used as a test input (publish date
equal to the run time below). -/
def sampleRecent : Scored := ⟨⟨('r' :: []), [], some 1000, ('a' :: []), []⟩, 0⟩

/-- A concrete dated-but-older scored candidate with a low score. -/
def sampleOldLow : Scored := ⟨⟨('p' :: []), [], some 0, ('b' :: []), []⟩, 1⟩

/-- A concrete dated-but-older scored candidate with a high score. -/
def sampleOldHigh : Scored := ⟨⟨('q' :: []), [], some 0, ('c' :: []), []⟩, 5⟩

/-! Helper lemmas about the dedup loop. -/

/-- The dedup loop depends on its `seen` set only through membership. -/
theorem dedupAux_congr : ∀ (l : List Candidate) (s₁ s₂ : List (List Char × List Char)),
    (∀ k, k ∈ s₁ ↔ k ∈ s₂) → dedupAux s₁ l = dedupAux s₂ l
  | [], _, _, _ => rfl
  | a :: rest, s₁, s₂, h => by
    simp only [dedupAux]
    by_cases hk : keyOf a ∈ s₁
    · rw [if_pos hk, if_pos ((h _).mp hk)]
      exact dedupAux_congr rest s₁ s₂ h
    · rw [if_neg hk, if_neg (fun hc => hk ((h _).mpr hc))]
      rw [dedupAux_congr rest (keyOf a :: s₁) (keyOf a :: s₂)
        (fun k => by simp only [List.mem_cons, h k])]

/-- Marking a key as seen is the same as deleting all its occurrences from
the remaining input. -/
theorem dedupAux_shift : ∀ (l : List Candidate) (seen : List (List Char × List Char)) (k),
    dedupAux (k :: seen) l = dedupAux seen (l.filter (fun a => decide (keyOf a ≠ k)))
  | [], _, _ => rfl
  | a :: rest, seen, k => by
    by_cases hak : keyOf a = k
    · have h1 : dedupAux (k :: seen) (a :: rest) = dedupAux (k :: seen) rest := by
        simp only [dedupAux]
        rw [if_pos (by simp [hak])]
      have h2 : (a :: rest).filter (fun a => decide (keyOf a ≠ k))
          = rest.filter (fun a => decide (keyOf a ≠ k)) := by
        simp [List.filter_cons, hak]
      rw [h1, h2, dedupAux_shift rest seen k]
    · have h2 : (a :: rest).filter (fun a => decide (keyOf a ≠ k))
          = a :: rest.filter (fun a => decide (keyOf a ≠ k)) := by
        simp [List.filter_cons, hak]
      rw [h2]
      by_cases hs : keyOf a ∈ seen
      · have h1 : dedupAux (k :: seen) (a :: rest) = dedupAux (k :: seen) rest := by
          simp only [dedupAux]
          rw [if_pos (by simp [hs])]
        have h3 : dedupAux seen (a :: rest.filter (fun a => decide (keyOf a ≠ k)))
            = dedupAux seen (rest.filter (fun a => decide (keyOf a ≠ k))) := by
          simp only [dedupAux]
          rw [if_pos hs]
        rw [h1, h3, dedupAux_shift rest seen k]
      · have h1 : dedupAux (k :: seen) (a :: rest)
            = a :: dedupAux (keyOf a :: k :: seen) rest := by
          simp only [dedupAux]
          rw [if_neg (by simp [hak, hs])]
        have h3 : dedupAux seen (a :: rest.filter (fun a => decide (keyOf a ≠ k)))
            = a :: dedupAux (keyOf a :: seen) (rest.filter (fun a => decide (keyOf a ≠ k))) := by
          simp only [dedupAux]
          rw [if_neg hs]
        rw [h1, h3, dedupAux_congr rest (keyOf a :: k :: seen) (k :: keyOf a :: seen)
          (fun k' => by simp only [List.mem_cons]; tauto),
          dedupAux_shift rest (keyOf a :: seen) k]

/-- Auxiliary strong induction for `dedup_spec`: the dedup loop computes
the first-occurrence subsequence. -/
theorem dedup_eq_firstOccurrences_aux :
    ∀ (n : Nat) (l : List Candidate), l.length ≤ n → dedup l = firstOccurrences l
  | _, [], _ => by simp [dedup, dedupAux, firstOccurrences]
  | 0, a :: rest, h => by simp at h
  | n + 1, a :: rest, h => by
    have hlen : (rest.filter (fun b => decide (keyOf b ≠ keyOf a))).length ≤ n := by
      have := List.length_filter_le (fun b => decide (keyOf b ≠ keyOf a)) rest
      simp only [List.length_cons, Nat.add_le_add_iff_right] at h
      omega
    simp only [firstOccurrences]
    rw [← dedup_eq_firstOccurrences_aux n _ hlen]
    show dedupAux [] (a :: rest) = _
    simp only [dedupAux]
    rw [if_neg (by simp)]
    rw [dedupAux_shift rest [] (keyOf a)]
    rfl

/-- The dedup loop output is a sublist of its input. -/
theorem dedupAux_sublist : ∀ (l : List Candidate) (seen), List.Sublist (dedupAux seen l) l
  | [], _ => List.Sublist.refl _
  | a :: rest, seen => by
    simp only [dedupAux]
    by_cases h : keyOf a ∈ seen
    · rw [if_pos h]
      exact (dedupAux_sublist rest seen).cons a
    · rw [if_neg h]
      exact (dedupAux_sublist rest (keyOf a :: seen)).cons₂ a

/-- The dedup loop emits pairwise-distinct keys, none of them in `seen`. -/
theorem dedupAux_keys : ∀ (l : List Candidate) (seen),
    ((dedupAux seen l).map keyOf).Nodup ∧
      ∀ k ∈ (dedupAux seen l).map keyOf, k ∉ seen
  | [], _ => by simp [dedupAux]
  | a :: rest, seen => by
    simp only [dedupAux]
    by_cases h : keyOf a ∈ seen
    · rw [if_pos h]
      exact dedupAux_keys rest seen
    · rw [if_neg h]
      obtain ⟨hnd, hmem⟩ := dedupAux_keys rest (keyOf a :: seen)
      refine ⟨List.nodup_cons.mpr ⟨fun hc => ?_, hnd⟩, ?_⟩
      · exact hmem _ hc (List.mem_cons_self _ _)
      · intro k hk
        rcases List.mem_cons.mp hk with rfl | hk
        · exact h
        · exact fun hc => hmem _ hk (List.mem_cons_of_mem _ hc)

/-- On an input with pairwise-distinct keys none of which is seen, the
dedup loop is the identity. -/
theorem dedupAux_of_nodup : ∀ (l : List Candidate) (seen),
    (l.map keyOf).Nodup → (∀ a ∈ l, keyOf a ∉ seen) → dedupAux seen l = l
  | [], _, _, _ => rfl
  | a :: rest, seen, hnd, hs => by
    simp only [dedupAux]
    rw [if_neg (hs a (List.mem_cons_self _ _))]
    congr 1
    rw [List.map_cons, List.nodup_cons] at hnd
    obtain ⟨hhead, htail⟩ := hnd
    refine dedupAux_of_nodup rest (keyOf a :: seen) htail ?_
    intro b hb
    rw [List.mem_cons]
    push_neg
    exact ⟨fun hc => hhead (hc ▸ List.mem_map_of_mem keyOf hb),
      hs b (List.mem_cons_of_mem _ hb)⟩

/-- A later occurrence of an already-seen key can be dropped without
changing the dedup loop's output. -/
theorem dedupAux_dupdrop : ∀ (l₁ : List Candidate) (seen) (x : Candidate) (l₂ : List Candidate),
    (keyOf x ∈ l₁.map keyOf ∨ keyOf x ∈ seen) →
    dedupAux seen (l₁ ++ x :: l₂) = dedupAux seen (l₁ ++ l₂)
  | [], seen, x, l₂, h => by
    have hx : keyOf x ∈ seen := by
      rcases h with h | h
      · simp at h
      · exact h
    simp only [List.nil_append, dedupAux, if_pos hx]
  | a :: rest, seen, x, l₂, h => by
    simp only [List.cons_append, dedupAux]
    by_cases hs : keyOf a ∈ seen
    · rw [if_pos hs, if_pos hs]
      refine dedupAux_dupdrop rest seen x l₂ ?_
      rcases h with h | h
      · rw [List.map_cons, List.mem_cons] at h
        rcases h with he | h
        · exact Or.inr (by rw [he]; exact hs)
        · exact Or.inl h
      · exact Or.inr h
    · rw [if_neg hs, if_neg hs]
      congr 1
      refine dedupAux_dupdrop rest (keyOf a :: seen) x l₂ ?_
      rcases h with h | h
      · rw [List.map_cons, List.mem_cons] at h
        rcases h with he | h
        · exact Or.inr (by simp [he])
        · exact Or.inl h
      · exact Or.inr (List.mem_cons_of_mem _ h)

/-- C2: deduplication keeps exactly the first occurrence of each
`(title, link)` pair in first-seen order (it equals the
first-occurrence subsequence and is a sublist of the input, so no
fields are merged and no reordering happens, and the kept keys are
pairwise distinct); it is idempotent, and dropping any later duplicate
of an already-seen key leaves the result unchanged, so the output
depends only on the first occurrences, not on where later duplicates
sit. -/
theorem dedup_spec :
    (∀ l, dedup l = firstOccurrences l) ∧
    (∀ l, List.Sublist (dedup l) l) ∧
    (∀ l, ((dedup l).map keyOf).Nodup) ∧
    (∀ l, dedup (dedup l) = dedup l) ∧
    (∀ (l₁ : List Candidate) (x : Candidate) (l₂ : List Candidate),
      keyOf x ∈ l₁.map keyOf → dedup (l₁ ++ x :: l₂) = dedup (l₁ ++ l₂)) := by
  refine ⟨fun l => dedup_eq_firstOccurrences_aux l.length l (Nat.le_refl _),
    fun l => dedupAux_sublist l [], fun l => (dedupAux_keys l []).1, fun l => ?_,
    fun l₁ x l₂ h => dedupAux_dupdrop l₁ [] x l₂ (Or.inl h)⟩
  exact dedupAux_of_nodup (dedup l) [] (dedupAux_keys l []).1 (by simp)

/-- Witness for C2 at a concrete input: dropping the duplicated first
candidate from a three-element aggregation leaves the dedup output
unchanged. -/
theorem dedup_spec_witness :
    dedup [(⟨('t' :: []), [], none, ('l' :: []), []⟩ : Candidate),
           ⟨('t' :: []), [], none, ('l' :: []), []⟩,
           ⟨('u' :: []), [], none, ('m' :: []), []⟩]
      = dedup [(⟨('t' :: []), [], none, ('l' :: []), []⟩ : Candidate),
               ⟨('u' :: []), [], none, ('m' :: []), []⟩] := by
  exact dedup_spec.2.2.2.2 [⟨('t' :: []), [], none, ('l' :: []), []⟩]
    ⟨('t' :: []), [], none, ('l' :: []), []⟩
    [⟨('u' :: []), [], none, ('m' :: []), []⟩] (by decide)

/-! Helper lemmas about the stable descending sort. -/

/-- Insertion permutes. -/
theorem insertDesc_perm (x : Scored) : ∀ l, List.Perm (insertDesc x l) (x :: l)
  | [] => List.Perm.refl _
  | y :: ys => by
    simp only [insertDesc]
    by_cases h : x.relevance_score < y.relevance_score
    · rw [if_pos h]
      exact ((insertDesc_perm x ys).cons y).trans (List.Perm.swap x y ys)
    · rw [if_neg h]

/-- The stable sort is a permutation of its input. -/
theorem sortDesc_perm : ∀ l, List.Perm (sortDesc l) l
  | [] => List.Perm.refl _
  | x :: xs => (insertDesc_perm x (sortDesc xs)).trans ((sortDesc_perm xs).cons x)

/-- The stable sort preserves length. -/
theorem length_sortDesc (l : List Scored) : (sortDesc l).length = l.length :=
  (sortDesc_perm l).length_eq

/-- Insertion preserves the descending-score ordering. -/
theorem insertDesc_sorted (x : Scored) :
    ∀ l, l.Pairwise (fun a b => b.relevance_score ≤ a.relevance_score) →
      (insertDesc x l).Pairwise (fun a b => b.relevance_score ≤ a.relevance_score)
  | [], _ => by simp [insertDesc]
  | y :: ys, hl => by
    simp only [insertDesc]
    rcases List.pairwise_cons.mp hl with ⟨hy, hys⟩
    by_cases h : x.relevance_score < y.relevance_score
    · rw [if_pos h]
      refine List.pairwise_cons.mpr ⟨?_, insertDesc_sorted x ys hys⟩
      intro b hb
      rcases List.mem_cons.mp ((insertDesc_perm x ys).mem_iff.mp hb) with rfl | hb
      · exact Nat.le_of_lt h
      · exact hy b hb
    · rw [if_neg h]
      have hxy : y.relevance_score ≤ x.relevance_score := Nat.le_of_not_lt h
      refine List.pairwise_cons.mpr ⟨?_, hl⟩
      intro b hb
      rcases List.mem_cons.mp hb with rfl | hb
      · exact hxy
      · exact le_trans (hy b hb) hxy

/-- The stable sort's output is in descending score order. -/
theorem sortDesc_sorted :
    ∀ l : List Scored,
      (sortDesc l).Pairwise (fun a b => b.relevance_score ≤ a.relevance_score)
  | [] => List.Pairwise.nil
  | x :: xs => insertDesc_sorted x (sortDesc xs) (sortDesc_sorted xs)

/-- Inserting an element of another score leaves a score-class filter
unchanged. -/
theorem insertDesc_filter_ne (x : Scored) (n : Nat) (hx : ¬ x.relevance_score = n) :
    ∀ l, (insertDesc x l).filter (fun s => decide (s.relevance_score = n))
      = l.filter (fun s => decide (s.relevance_score = n))
  | [] => by simp [insertDesc, List.filter_cons, hx]
  | y :: ys => by
    simp only [insertDesc]
    by_cases h : x.relevance_score < y.relevance_score
    · rw [if_pos h, List.filter_cons, List.filter_cons,
        insertDesc_filter_ne x n hx ys]
    · rw [if_neg h, List.filter_cons, if_neg (by simp [hx])]

/-- Inserting an element into a sorted list puts it in front of its
score class: stability of the sort. -/
theorem insertDesc_filter_eq (x : Scored) (n : Nat) (hx : x.relevance_score = n) :
    ∀ l, l.Pairwise (fun a b => b.relevance_score ≤ a.relevance_score) →
      (insertDesc x l).filter (fun s => decide (s.relevance_score = n))
        = x :: l.filter (fun s => decide (s.relevance_score = n))
  | [], _ => by simp [insertDesc, List.filter_cons, hx]
  | y :: ys, hl => by
    simp only [insertDesc]
    rcases List.pairwise_cons.mp hl with ⟨hy, hys⟩
    by_cases h : x.relevance_score < y.relevance_score
    · have hyn : ¬ (y.relevance_score = n) := by omega
      rw [if_pos h, List.filter_cons, if_neg (by simp [hyn]),
        insertDesc_filter_eq x n hx ys hys, List.filter_cons,
        if_neg (by simp [hyn])]
    · rw [if_neg h, List.filter_cons, if_pos (by simp [hx])]

/-- Stability of the stable sort, phrased on score classes: each class of
equal-score elements keeps its original relative order. -/
theorem sortDesc_filter (n : Nat) :
    ∀ l, (sortDesc l).filter (fun s => decide (s.relevance_score = n))
      = l.filter (fun s => decide (s.relevance_score = n))
  | [] => rfl
  | x :: xs => by
    show (insertDesc x (sortDesc xs)).filter _ = _
    by_cases hx : x.relevance_score = n
    · rw [insertDesc_filter_eq x n hx (sortDesc xs) (sortDesc_sorted xs),
        sortDesc_filter n xs, List.filter_cons, if_pos (by simp [hx])]
    · rw [insertDesc_filter_ne x n hx (sortDesc xs),
        sortDesc_filter n xs, List.filter_cons, if_neg (by simp [hx])]

/-- Every selected candidate comes from the recent pool or the older pool. -/
theorem mem_weeklySelect (unique : List Scored) (now : Int) :
    ∀ s ∈ weeklySelect unique now,
      s ∈ unique.filter (isRecent now) ∨ s ∈ unique.filter (isOlder now) := by
  intro s hs
  simp only [weeklySelect] at hs
  by_cases h : (unique.filter (isRecent now)).length < 50
  · rw [if_pos h] at hs
    rcases List.mem_append.mp hs with hs | hs
    · exact Or.inl hs
    · exact Or.inr ((sortDesc_perm _).mem_iff.mp ((List.take_sublist _ _).subset hs))
  · rw [if_neg h] at hs
    exact Or.inl ((List.take_sublist _ _).subset hs)

/-- A candidate passing the recency test carries a publish date. -/
theorem date_isSome_of_isRecent {now : Int} {s : Scored}
    (h : isRecent now s = true) : s.cand.publish_date ≠ none := by
  cases hd : s.cand.publish_date with
  | none => rw [isRecent, hd] at h; exact absurd h (by simp)
  | some d => simp [hd]

/-- A candidate passing the older-pool test carries a publish date. -/
theorem date_isSome_of_isOlder {now : Int} {s : Scored}
    (h : isOlder now s = true) : s.cand.publish_date ≠ none := by
  cases hd : s.cand.publish_date with
  | none => rw [isOlder, hd] at h; exact absurd h (by simp)
  | some d => simp [hd]

/-- C1: the selection step of `weekly_search` (quota 50, window 365 days):
dateless candidates are never selected; with `R` recent candidates,
`R ≥ 50` yields exactly 50 entries, all recent; `R < 50` yields the `R`
recent entries followed by `min(50 − R, |older|)` entries of the stably
descending-score-sorted older pool (that sort permutes the older pool,
is in descending score order, keeps each equal-score class in original
order, and every taken entry's score dominates every left-behind one),
so the output is shorter than 50 only when both pools together are
insufficient. -/
theorem weeklySelect_quota_window (unique : List Scored) (now : Int) :
    (∀ s ∈ weeklySelect unique now, s.cand.publish_date ≠ none) ∧
    (50 ≤ (unique.filter (isRecent now)).length →
      (weeklySelect unique now).length = 50 ∧
      ∀ s ∈ weeklySelect unique now, isRecent now s = true) ∧
    ((unique.filter (isRecent now)).length < 50 →
      weeklySelect unique now
          = unique.filter (isRecent now)
            ++ (sortDesc (unique.filter (isOlder now))).take
                (50 - (unique.filter (isRecent now)).length) ∧
      (weeklySelect unique now).length
          = (unique.filter (isRecent now)).length
            + min (50 - (unique.filter (isRecent now)).length)
                (unique.filter (isOlder now)).length ∧
      List.Perm (sortDesc (unique.filter (isOlder now))) (unique.filter (isOlder now)) ∧
      (sortDesc (unique.filter (isOlder now))).Pairwise
        (fun a b => b.relevance_score ≤ a.relevance_score) ∧
      (∀ n, (sortDesc (unique.filter (isOlder now))).filter
              (fun s => decide (s.relevance_score = n))
            = (unique.filter (isOlder now)).filter
                (fun s => decide (s.relevance_score = n))) ∧
      (∀ x ∈ (sortDesc (unique.filter (isOlder now))).take
              (50 - (unique.filter (isRecent now)).length),
        ∀ y ∈ (sortDesc (unique.filter (isOlder now))).drop
              (50 - (unique.filter (isRecent now)).length),
        y.relevance_score ≤ x.relevance_score)) := by
  refine ⟨?_, ?_, ?_⟩
  · intro s hs
    rcases mem_weeklySelect unique now s hs with h | h
    · exact date_isSome_of_isRecent (List.mem_filter.mp h).2
    · exact date_isSome_of_isOlder (List.mem_filter.mp h).2
  · intro h
    have hnot : ¬ (unique.filter (isRecent now)).length < 50 := Nat.not_lt.mpr h
    constructor
    · show (weeklySelect unique now).length = 50
      simp only [weeklySelect]
      rw [if_neg hnot, List.length_take]
      omega
    · intro s hs
      simp only [weeklySelect] at hs
      rw [if_neg hnot] at hs
      exact (List.mem_filter.mp ((List.take_sublist _ _).subset hs)).2
  · intro h
    have heq : weeklySelect unique now
        = unique.filter (isRecent now)
          ++ (sortDesc (unique.filter (isOlder now))).take
              (50 - (unique.filter (isRecent now)).length) := by
      simp only [weeklySelect]
      rw [if_pos h]
    refine ⟨heq, ?_, sortDesc_perm _, sortDesc_sorted _, fun n => sortDesc_filter n _, ?_⟩
    · rw [heq, List.length_append, List.length_take, length_sortDesc]
    · have hp := sortDesc_sorted (unique.filter (isOlder now))
      rw [← List.take_append_drop (50 - (unique.filter (isRecent now)).length)
        (sortDesc (unique.filter (isOlder now)))] at hp
      exact (List.pairwise_append.mp hp).2.2

/-- Witness for C1 at a concrete input: one recent and two older
candidates; the older entries are appended in descending score order. -/
theorem weeklySelect_quota_window_witness :
    weeklySelect [sampleRecent, sampleOldLow, sampleOldHigh] 1000
      = [sampleRecent, sampleOldHigh, sampleOldLow] := by
  have h := (weeklySelect_quota_window [sampleRecent, sampleOldLow, sampleOldHigh] 1000).2.2
    (by decide)
  rw [h.1]
  decide

/-- C10: when at least 50 candidates are dated within the window, the
selection is the first 50 recent candidates in first-seen aggregation
order — a sublist of the unique list, re-sorted neither by score nor by
date. -/
theorem weeklySelect_no_resort (unique : List Scored) (now : Int)
    (h : 50 ≤ (unique.filter (isRecent now)).length) :
    weeklySelect unique now = (unique.filter (isRecent now)).take 50 ∧
    List.Sublist (weeklySelect unique now) unique := by
  have he : weeklySelect unique now = (unique.filter (isRecent now)).take 50 := by
    simp only [weeklySelect]
    rw [if_neg (Nat.not_lt.mpr h)]
  refine ⟨he, ?_⟩
  rw [he]
  exact (List.take_sublist _ _).trans (List.filter_sublist _)

/-- Witness for C10 at a concrete input of fifty recent candidates. -/
theorem weeklySelect_no_resort_witness :
    weeklySelect (List.replicate 50 sampleRecent) 1000
        = ((List.replicate 50 sampleRecent).filter (isRecent 1000)).take 50 ∧
      List.Sublist (weeklySelect (List.replicate 50 sampleRecent) 1000)
        (List.replicate 50 sampleRecent) :=
  weeklySelect_no_resort _ 1000 (by decide)

/-! Helper lemmas about the relevance scorer. -/

/-- A conditional-increment fold is the sum of conditional contributions. -/
theorem foldl_if_add (g : List Char → Bool) (c : Nat) :
    ∀ (l : List (List Char)) (init : Nat),
      l.foldl (fun s kw => if g kw then s + c else s) init
        = init + (l.map (fun kw => if g kw then c else 0)).sum
  | [], init => by simp
  | kw :: rest, init => by
    simp only [List.foldl_cons, List.map_cons, List.sum_cons]
    rw [foldl_if_add g c rest]
    by_cases h : g kw
    · rw [if_pos h, if_pos h]
      omega
    · rw [if_neg h, if_neg h]
      omega

/-- Sums of pointwise-added maps split. -/
theorem sum_map_add_distrib (f g : List Char → Nat) :
    ∀ l : List (List Char),
      (l.map (fun kw => f kw + g kw)).sum = (l.map f).sum + (l.map g).sum
  | [] => rfl
  | kw :: rest => by
    simp only [List.map_cons, List.sum_cons, sum_map_add_distrib f g rest]
    omega

/-- The two scoring loops together compute the sum of per-keyword
contributions. -/
theorem calculate_relevance_eq_sum (a : Candidate) :
    calculate_relevance a = (G6_KEYWORDS.map (kwContribution a)).sum := by
  have hmap : G6_KEYWORDS.map (kwContribution a)
      = G6_KEYWORDS.map (fun kw =>
          (if wordHit (candText a) kw then 1 else 0) +
          (if isSubstr (lowerStr kw) (lowerStr a.title) then 3 else 0)) := rfl
  simp only [calculate_relevance]
  rw [foldl_if_add (fun kw => wordHit (candText a) kw) 1 G6_KEYWORDS 0,
    foldl_if_add (fun kw => isSubstr (lowerStr kw) (lowerStr a.title)) 3 G6_KEYWORDS 0,
    hmap, sum_map_add_distrib]
  omega

/-- If a word of the keyword is an infix of the keyword, and the keyword is
an infix of the lower-cased title, the word-match loop fires for that
keyword. -/
theorem wordHit_of_title (a : Candidate) (kw w : List Char)
    (hw : w ∈ pySplit (lowerStr kw)) (hwk : w <:+: lowerStr kw)
    (h : lowerStr kw <:+: lowerStr a.title) : wordHit (candText a) kw = true := by
  have htext : lowerStr a.title <:+: candText a :=
    ⟨[], ' ' :: lowerStr a.full_text, rfl⟩
  refine List.any_eq_true.mpr ⟨w, hw, ?_⟩
  exact decide_eq_true (hwk.trans (h.trans htext))

/-- A keyword occurring verbatim in the lower-cased title contributes
exactly four points: the single word-match point plus the flat title
bonus. -/
theorem kwContribution_of_title (a : Candidate) (kw : List Char)
    (hkw : kw ∈ G6_KEYWORDS) (h : lowerStr kw <:+: lowerStr a.title) :
    kwContribution a kw = 4 := by
  have hword : wordHit (candText a) kw = true := by
    fin_cases hkw <;>
      exact wordHit_of_title a _ ('6' :: 'g' :: []) (by decide) (by decide) h
  have hbonus : isSubstr (lowerStr kw) (lowerStr a.title) = true := decide_eq_true h
  unfold kwContribution
  rw [hword, hbonus]
  rfl

/-- A verbatim title keyword pushes the total score to at least four. -/
theorem calculate_relevance_ge (a : Candidate) (kw : List Char)
    (hkw : kw ∈ G6_KEYWORDS) (h : lowerStr kw <:+: lowerStr a.title) :
    4 ≤ calculate_relevance a := by
  rw [calculate_relevance_eq_sum]
  have hmem : kwContribution a kw ∈ G6_KEYWORDS.map (kwContribution a) :=
    List.mem_map_of_mem _ hkw
  calc 4 = kwContribution a kw := (kwContribution_of_title a kw hkw h).symm
    _ ≤ _ := List.single_le_sum (fun x _ => Nat.zero_le x) _ hmem

/-- C3: `calculate_relevance` is the sum over the keyword vocabulary of the
word-match point (at most one per keyword) plus the verbatim-title
bonus of three, and a keyword phrase occurring verbatim in the
lower-cased title contributes exactly four points for that keyword
(word point plus bonus, never just three and never just one), making
the total at least four. -/
theorem calculate_relevance_spec (a : Candidate) :
    calculate_relevance a = (G6_KEYWORDS.map (kwContribution a)).sum ∧
    ∀ kw ∈ G6_KEYWORDS, lowerStr kw <:+: lowerStr a.title →
      kwContribution a kw = 4 ∧ 4 ≤ calculate_relevance a :=
  ⟨calculate_relevance_eq_sum a, fun kw hkw h =>
    ⟨kwContribution_of_title a kw hkw h, calculate_relevance_ge a kw hkw h⟩⟩

/-- Witness for C3 at a concrete input: a title containing the first
vocabulary keyword verbatim. -/
theorem calculate_relevance_spec_witness :
    kwContribution sampleTitled (("6G wireless communication").toList) = 4 ∧
      4 ≤ calculate_relevance sampleTitled :=
  (calculate_relevance_spec sampleTitled).2 (("6G wireless communication").toList)
    (by decide) (by decide)

/-- C7: the joined author string is unchanged at length up to 1000; past
1000 it becomes exactly its first 950 characters plus the literal
marker, of fixed total length 961 independent of the input length; an
empty author list joins to the empty string, never to a null; and the
arXiv and Semantic Scholar normalizers emit exactly this capped join. -/
theorem capAuthors_spec (s : List Char) :
    (s.length ≤ 1000 → capAuthors s = s) ∧
    (1000 < s.length →
      capAuthors s = s.take 950 ++ etAlMarker ∧ (capAuthors s).length = 961) ∧
    joinAuthors [] = [] ∧
    (∀ r : ArxivRec, (arxivNormalizeOne r).authors = capAuthors (joinAuthors r.authors)) ∧
    (∀ (r : SemRec) (c : Candidate), semanticNormalizeOne r = .ok c →
      c.authors = capAuthors (joinAuthors r.authors)) := by
  refine ⟨?_, ?_, rfl, fun r => rfl, ?_⟩
  · intro h
    unfold capAuthors
    rw [if_neg (by omega)]
  · intro h
    have he : capAuthors s = s.take 950 ++ etAlMarker := by
      unfold capAuthors
      rw [if_pos h]
    refine ⟨he, ?_⟩
    rw [he, List.length_append, List.length_take]
    have hm : min 950 s.length = 950 := by omega
    rw [hm]
    decide
  · intro r c h
    unfold semanticNormalizeOne at h
    split at h
    · exact absurd h (by simp)
    · injection h with h
      subst h
      rfl

/-- Witness for C7 at a concrete input of 1001 characters. -/
theorem capAuthors_spec_witness :
    capAuthors (List.replicate 1001 'a')
        = (List.replicate 1001 'a').take 950 ++ etAlMarker ∧
      (capAuthors (List.replicate 1001 'a')).length = 961 :=
  (capAuthors_spec (List.replicate 1001 'a')).2.1
    (by rw [List.length_replicate]; omega)

/-! Helper lemmas about the retry wrapper. -/

/-- The catch-all handler always returns normally. -/
theorem pyTryAll_isOk {α : Type} (body : PyResult α) (h : α) :
    ∃ v, pyTryAll body h = .ok v := by
  cases body with
  | ok v => exact ⟨v, rfl⟩
  | error e => exact ⟨h, rfl⟩

/-- A call that returns normally is never re-invoked by tenacity: one
attempt, same value. -/
theorem tenacityCall_ok {α : Type} (cap : Nat) (v : α) :
    tenacityCall cap (.ok v) = (.ok v, 1) := by
  unfold tenacityCall
  match cap with
  | 0 => rfl
  | 1 => rfl
  | n + 2 => rfl

/-- Any HTTP status whose body is malformed degrades Semantic Scholar to
an empty list through its catch-all handler. -/
theorem semantic_error_empty (c : Nat) :
    (semantic_fetch (.status c (.error ()))).1 = .ok [] := by
  by_cases h429 : c = 429 <;> by_cases h400 : 400 ≤ c <;>
    simp [semantic_fetch, semantic_body, pyTryAll, h429, h400, tenacityCall_ok]

/-- Any HTTP status whose body is malformed degrades CORE to an empty
list through its catch-all handler. -/
theorem core_error_empty (c : Nat) :
    (core_fetch (.status c (.error ()))).1 = .ok [] := by
  by_cases h429 : c = 429 <;> by_cases h400 : 400 ≤ c <;>
    simp [core_fetch, core_body, pyTryAll, h429, h400, tenacityCall_ok]

/-- Any HTTP status whose body is malformed degrades ScienceDirect to an
empty list through its catch-all handler. -/
theorem sd_error_empty (c : Nat) :
    (sd_fetch true (.status c (.error ()))).1 = .ok [] := by
  by_cases h429 : c = 429 <;> by_cases h400 : 400 ≤ c <;>
    simp [sd_fetch, sd_body, pyTryAll, h429, h400, tenacityCall_ok]

/-- Any HTTP status whose body is malformed degrades Crossref to an empty
list through its catch-all handler. -/
theorem crossref_error_empty (c : Nat) :
    crossref_fetch (.status c (.error ())) = .ok [] := by
  by_cases h400 : 400 ≤ c <;>
    simp [crossref_fetch, crossref_body, pyTryAll, h400]

/-- C5: no source adapter ever propagates an exception to its caller: for
every outcome of the underlying network call (network error, malformed
payload, rate limit, any other HTTP error) each of the six adapters
returns a normal candidate list, and on a network error or malformed
payload that list is empty, so the aggregation loop always continues
with whatever other sources succeeded. -/
theorem adapters_never_raise :
    (∀ o, ∃ l, arxiv_fetch o = .ok l) ∧
    (∀ o, ∃ l, (semantic_fetch o).1 = .ok l) ∧
    (∀ o, ∃ l, (core_fetch o).1 = .ok l) ∧
    (∀ hk o, ∃ l, (sd_fetch hk o).1 = .ok l) ∧
    (∀ o, ∃ l, crossref_fetch o = .ok l) ∧
    (∀ m o, ∃ l, scholarly_fetch m o = .ok l) ∧
    (∀ e, arxiv_fetch (.error e) = .ok []) ∧
    ((semantic_fetch .netError).1 = .ok [] ∧
      ∀ c, (semantic_fetch (.status c (.error ()))).1 = .ok []) ∧
    ((core_fetch .netError).1 = .ok [] ∧
      ∀ c, (core_fetch (.status c (.error ()))).1 = .ok []) ∧
    ((sd_fetch true .netError).1 = .ok [] ∧
      ∀ c, (sd_fetch true (.status c (.error ()))).1 = .ok []) ∧
    (crossref_fetch .netError = .ok [] ∧
      ∀ c, crossref_fetch (.status c (.error ())) = .ok []) ∧
    (∀ m e, scholarly_fetch m (.error e) = .ok []) := by
  refine ⟨fun o => pyTryAll_isOk _ _, fun o => ?_, fun o => ?_, fun hk o => ?_,
    fun o => pyTryAll_isOk _ _, fun m o => pyTryAll_isOk _ _,
    fun e => rfl, ⟨rfl, semantic_error_empty⟩, ⟨rfl, core_error_empty⟩,
    ⟨rfl, sd_error_empty⟩, ⟨rfl, crossref_error_empty⟩, fun m e => rfl⟩
  · obtain ⟨v, hv⟩ := pyTryAll_isOk (semantic_body o) []
    exact ⟨v, by rw [semantic_fetch, hv, tenacityCall_ok]⟩
  · obtain ⟨v, hv⟩ := pyTryAll_isOk (core_body o) []
    exact ⟨v, by rw [core_fetch, hv, tenacityCall_ok]⟩
  · cases hk with
    | true =>
      obtain ⟨v, hv⟩ := pyTryAll_isOk (sd_body o) []
      exact ⟨v, by rw [sd_fetch, if_pos rfl, hv, tenacityCall_ok]⟩
    | false => exact ⟨[], by rw [sd_fetch, if_neg (by simp), tenacityCall_ok]⟩

/-- C6, evaluated at the failing input: a rate-limited (HTTP 429) response
makes the CORE, Semantic Scholar and ScienceDirect adapters return an
empty list after exactly one attempt — the function's own catch-all
handler swallows the deliberately raised `HTTPError` (Semantic Scholar
returns `[]` on 429 without raising at all), so the tenacity wrapper
sees a normal return and never retries; the wrapper itself would retry
to the 5- or 3-attempt cap only if the error escaped the handler. -/
theorem rateLimit_no_retry :
    core_fetch (.status 429 (.error ())) = (.ok [], 1) ∧
    semantic_fetch (.status 429 (.error ())) = (.ok [], 1) ∧
    sd_fetch true (.status 429 (.error ())) = (.ok [], 1) ∧
    tenacityCall 5 (Except.error PyExc.httpError : PyResult (List Candidate))
        = (.error .httpError, 5) ∧
    tenacityCall 3 (Except.error PyExc.httpError : PyResult (List Candidate))
        = (.error .httpError, 3) :=
  ⟨rfl, rfl, rfl, rfl, rfl⟩

/-- Counterexample to C8: the arXiv adapter does not drop a record whose
title is missing — it emits a candidate with an empty title. -/
theorem arxiv_empty_title_emitted :
    ¬ (∀ c ∈ arxivParse [⟨none, [], none, [], none⟩], c.title ≠ []) := by
  intro h
  exact h (arxivNormalizeOne ⟨none, [], none, [], none⟩) (by simp [arxivParse]) rfl

/-- A Semantic Scholar record yielded by the loop carries the
safe-coerced source title. -/
theorem semanticNormalizeOne_ok_title {r : SemRec} {c : Candidate}
    (h : semanticNormalizeOne r = .ok c) : c.title = safeStr r.title := by
  unfold semanticNormalizeOne at h
  cases hd : r.publicationDate with
  | none =>
    rw [hd] at h
    injection h with h
    subst h
    rfl
  | some o =>
    cases o with
    | malformed =>
      rw [hd] at h
      cases h
    | parsed d =>
      rw [hd] at h
      injection h with h
      subst h
      rfl

/-- The Semantic Scholar adapter never drops a record for lack of title:
any record whose publication date does not make `strptime` raise is
emitted, with the safe-coerced (possibly empty) title. -/
theorem semanticNormalizeOne_title (r : SemRec)
    (hy : r.publicationDate ≠ some StrpOutcome.malformed) :
    ∃ c, semanticNormalizeOne r = .ok c ∧ c.title = safeStr r.title := by
  unfold semanticNormalizeOne
  cases hd : r.publicationDate with
  | none => exact ⟨_, rfl, rfl⟩
  | some o =>
    cases o with
    | malformed => exact absurd hd hy
    | parsed d => exact ⟨_, rfl, rfl⟩

/-- A successful Semantic Scholar loop emits one candidate per record, in
order, each carrying the safe-coerced source title. -/
theorem semanticParse_titles : ∀ (rs : List SemRec) (cs : List Candidate),
    semanticParse rs = .ok cs →
    cs.map Candidate.title = rs.map (fun r => safeStr r.title)
  | [], cs, h => by
    injection h with h
    subst h
    rfl
  | r :: rs, cs, h => by
    unfold semanticParse at h
    cases hn : semanticNormalizeOne r with
    | error e =>
      rw [hn] at h
      cases h
    | ok c =>
      rw [hn] at h
      cases hp : semanticParse rs with
      | error e =>
        rw [hp] at h
        cases h
      | ok cs' =>
        rw [hp] at h
        injection h with h
        subst h
        rw [List.map_cons, List.map_cons, semanticParse_titles rs cs' hp,
          semanticNormalizeOne_ok_title hn]

/-- A successful ScienceDirect loop emits only candidates whose title
stems from a present, non-sentinel title field. -/
theorem sdParse_titles : ∀ (rs : List SDRec) (cs : List Candidate),
    sdParse rs = .ok cs →
    ∀ c ∈ cs, ∃ r ∈ rs, r.title = some c.title ∧ c.title ≠ noTitleSentinel
  | [], cs, h, c, hc => by
    injection h with h
    subst h
    exact absurd hc (List.not_mem_nil c)
  | r :: rs, cs, h, c, hc => by
    unfold sdParse at h
    cases hn : sdNormalizeOne r with
    | error e =>
      rw [hn] at h
      cases h
    | ok c? =>
      rw [hn] at h
      cases hp : sdParse rs with
      | error e =>
        rw [hp] at h
        cases h
      | ok cs' =>
        rw [hp] at h
        injection h with h
        subst h
        cases c? with
        | none =>
          obtain ⟨r', hr', hb⟩ := sdParse_titles rs cs' hp c hc
          exact ⟨r', List.mem_cons_of_mem _ hr', hb⟩
        | some c0 =>
          rcases List.mem_cons.mp hc with rfl | hc
          · refine ⟨r, List.mem_cons_self _ _, ?_⟩
            unfold sdNormalizeOne at hn
            by_cases ht : r.title.getD noTitleSentinel = noTitleSentinel
            · rw [if_pos ht] at hn
              injection hn with hn
              cases hn
            · rw [if_neg ht] at hn
              cases hl : sdLink r with
              | error e =>
                rw [hl] at hn
                cases hn
              | ok link =>
                rw [hl] at hn
                injection hn with hn
                injection hn with hn
                subst hn
                cases hrt : r.title with
                | none => exact absurd (by rw [hrt]; rfl) ht
                | some t => exact ⟨rfl, by rw [hrt] at ht; simpa using ht⟩
          · obtain ⟨r', hr', hb⟩ := sdParse_titles rs cs' hp c hc
            exact ⟨r', List.mem_cons_of_mem _ hr', hb⟩

/-- The Crossref title lookup of a record whose title list is present and
non-empty is its head. -/
theorem crTitle_cons {r : CRRec} {t : List Char} {rest : List (List Char)}
    (h : r.titleField = some (t :: rest)) : crTitle r = t := by
  simp [crTitle, h]

/-- Every emitted Google Scholar candidate stems from a record with a
present `bib`, and carries that bib's safe-coerced title. -/
theorem scholarlyFold_titles : ∀ (rs : List ScholRec),
    ∀ c ∈ rs.foldr (fun r acc =>
        match scholarlyNormalizeOne r with
        | .ok c => c :: acc
        | .error _ => acc) [],
      ∃ r ∈ rs, ∃ b, r.bib = some b ∧ c.title = safeStr b.title
  | [], c, hc => absurd hc (List.not_mem_nil c)
  | r :: rs, c, hc => by
    simp only [List.foldr_cons] at hc
    cases hn : scholarlyNormalizeOne r with
    | error e =>
      rw [hn] at hc
      obtain ⟨r', hr', hb⟩ := scholarlyFold_titles rs c hc
      exact ⟨r', List.mem_cons_of_mem _ hr', hb⟩
    | ok c0 =>
      rw [hn] at hc
      rcases List.mem_cons.mp hc with rfl | hc
      · refine ⟨r, List.mem_cons_self _ _, ?_⟩
        unfold scholarlyNormalizeOne at hn
        cases hb : r.bib with
        | none =>
          rw [hb] at hn
          cases hn
        | some b =>
          rw [hb] at hn
          refine ⟨b, rfl, ?_⟩
          cases hy : b.pub_year with
          | none =>
            simp only [hy] at hn
            injection hn with hn
            subst hn
            rfl
          | some o =>
            cases o with
            | malformed =>
              simp only [hy] at hn
              cases hn
            | parsed d =>
              simp only [hy] at hn
              injection hn with hn
              subst hn
              rfl
      · obtain ⟨r', hr', hb⟩ := scholarlyFold_titles rs c hc
        exact ⟨r', List.mem_cons_of_mem _ hr', hb⟩

/-- The Google Scholar loop never drops a record for lack of title: any
record with a `bib` dict whose year does not make `strptime` raise is
emitted with the safe-coerced (possibly empty) bib title. -/
theorem scholarlyNormalizeOne_title (r : ScholRec) (b : ScholBib)
    (hb : r.bib = some b) (hy : b.pub_year ≠ some StrpOutcome.malformed) :
    ∃ c, scholarlyNormalizeOne r = .ok c ∧ c.title = safeStr b.title := by
  unfold scholarlyNormalizeOne
  rw [hb]
  cases hyv : b.pub_year with
  | none => exact ⟨_, by simp only [hyv]; rfl, rfl⟩
  | some o =>
    cases o with
    | malformed => exact absurd hyv hy
    | parsed d => exact ⟨_, by simp only [hyv]; rfl, rfl⟩

/-- C8 as amended: among the six adapters, exactly the CORE, ScienceDirect
and Crossref adapters drop records over their title, and each drops
exactly the records whose title lookup yields the missing-title
sentinel; every candidate they emit has a title taken from a present,
non-sentinel title field (which may still be empty). The arXiv,
Semantic Scholar and Google Scholar adapters never drop a record for
lack of title: every arXiv record is emitted, and every Semantic
Scholar or Google Scholar record that is otherwise well-formed (no
malformed date, a `bib` present) is emitted, always with the
safe-string-coerced title — empty when the source supplies none. -/
theorem titles_amended :
    (∀ rs : List ArxivRec,
      (arxivParse rs).map Candidate.title = rs.map (fun r => safeStr r.title)) ∧
    (∀ (items : List CoreRec), ∀ c ∈ coreParse items,
      ∃ r ∈ items, r.title = some c.title ∧ c.title ≠ noTitleSentinel) ∧
    (∀ r : CoreRec,
      coreNormalizeOne r = none ↔ r.title.getD noTitleSentinel = noTitleSentinel) ∧
    (∀ r : SDRec,
      sdNormalizeOne r = .ok none ↔ r.title.getD noTitleSentinel = noTitleSentinel) ∧
    (∀ (rs : List SDRec) (cs : List Candidate), sdParse rs = .ok cs →
      ∀ c ∈ cs, ∃ r ∈ rs, r.title = some c.title ∧ c.title ≠ noTitleSentinel) ∧
    (∀ r : CRRec, crNormalizeOne r = none ↔ crTitle r = noTitleSentinel) ∧
    (∀ (items : List CRRec), ∀ c ∈ crParse items,
      ∃ r ∈ items, ∃ rest, r.titleField = some (c.title :: rest) ∧
        c.title ≠ noTitleSentinel) ∧
    (∀ r : SemRec, r.publicationDate ≠ some StrpOutcome.malformed →
      ∃ c, semanticNormalizeOne r = .ok c ∧ c.title = safeStr r.title) ∧
    (∀ (rs : List SemRec) (cs : List Candidate), semanticParse rs = .ok cs →
      cs.map Candidate.title = rs.map (fun r => safeStr r.title)) ∧
    (∀ (r : ScholRec) (b : ScholBib), r.bib = some b →
      b.pub_year ≠ some StrpOutcome.malformed →
      ∃ c, scholarlyNormalizeOne r = .ok c ∧ c.title = safeStr b.title) ∧
    (∀ (maxr : Nat) (rs : List ScholRec), ∀ c ∈ scholarlyParse maxr rs,
      ∃ r ∈ rs, ∃ b, r.bib = some b ∧ c.title = safeStr b.title) := by
  refine ⟨?_, ?_, ?_, ?_, sdParse_titles, ?_, ?_, semanticNormalizeOne_title,
    semanticParse_titles, scholarlyNormalizeOne_title, ?_⟩
  · intro rs
    rw [arxivParse, List.map_map]
    rfl
  · intro items c hc
    rw [coreParse] at hc
    obtain ⟨r, hr, he⟩ := List.mem_filterMap.mp hc
    refine ⟨r, hr, ?_⟩
    unfold coreNormalizeOne at he
    by_cases ht : r.title.getD noTitleSentinel = noTitleSentinel
    · rw [if_pos ht] at he
      cases he
    · rw [if_neg ht] at he
      injection he with he
      subst he
      cases hrt : r.title with
      | none => exact absurd (by rw [hrt]; rfl) ht
      | some t => exact ⟨rfl, by rw [hrt] at ht; simpa using ht⟩
  · intro r
    unfold coreNormalizeOne
    by_cases ht : r.title.getD noTitleSentinel = noTitleSentinel
    · rw [if_pos ht]
      simp [ht]
    · rw [if_neg ht]
      simp [ht]
  · intro r
    unfold sdNormalizeOne
    by_cases ht : r.title.getD noTitleSentinel = noTitleSentinel
    · rw [if_pos ht]
      simp [ht]
    · rw [if_neg ht]
      cases hl : sdLink r with
      | error e => simp [ht]
      | ok link => simp [ht]
  · intro r
    unfold crNormalizeOne
    by_cases ht : crTitle r = noTitleSentinel
    · rw [if_pos ht]
      simp [ht]
    · rw [if_neg ht]
      simp [ht]
  · intro items c hc
    rw [crParse] at hc
    obtain ⟨r, hr, he⟩ := List.mem_filterMap.mp hc
    refine ⟨r, hr, ?_⟩
    unfold crNormalizeOne at he
    by_cases ht : crTitle r = noTitleSentinel
    · rw [if_pos ht] at he
      cases he
    · rw [if_neg ht] at he
      injection he with he
      subst he
      cases htf : r.titleField with
      | none => exact absurd (by simp [crTitle, htf]) ht
      | some ts =>
        cases ts with
        | nil => exact absurd (by simp [crTitle, htf]) ht
        | cons t rest =>
          have hct : crTitle r = t := crTitle_cons htf
          refine ⟨rest, ?_, ?_⟩
          · show some (t :: rest) = some (crTitle r :: rest)
            rw [hct]
          · show crTitle r ≠ noTitleSentinel
            exact ht
  · intro maxr rs c hc
    obtain ⟨r, hr, hb⟩ := scholarlyFold_titles (rs.take maxr) c hc
    exact ⟨r, (List.take_sublist _ _).subset hr, hb⟩

/-- Witness for the amended C8 at a concrete input: a CORE record with a
present one-character title is emitted with exactly that title. -/
theorem titles_amended_witness :
    ∃ r ∈ [coreTitledRec], r.title = some ('T' :: []) ∧
      ('T' :: ([] : List Char)) ≠ noTitleSentinel := by
  have h := titles_amended.2.1 [coreTitledRec]
    ⟨('T' :: []), [], none, ("https://core.ac.uk").toList, []⟩ (by decide)
  exact h

/-! Helper lemmas about the link enricher. -/

/-- One enrichment step either keeps the candidate untouched or replaces
exactly its link with a non-empty PDF URL obtained from a 200 response
for an arxiv-looking link. -/
theorem enrichOne_cases (oracle : List Char → UnpaywallOutcome) (s : Scored) :
    enrichOne oracle s = s ∨
    ∃ oa, (("arxiv").toList <:+: s.cand.link ∧ afterLastAbs s.cand.link ≠ []) ∧
      oracle (afterLastAbs s.cand.link) = .status 200 (.ok (some oa)) ∧ oa ≠ [] ∧
      enrichOne oracle s = { s with cand := { s.cand with link := oa } } := by
  by_cases hc : ("arxiv").toList <:+: s.cand.link ∧ afterLastAbs s.cand.link ≠ []
  · cases ho : oracle (afterLastAbs s.cand.link) with
    | netError => exact Or.inl (by simp only [enrichOne, if_pos hc, ho])
    | status code body =>
      by_cases h200 : code = 200
      · cases body with
        | error e =>
          exact Or.inl (by simp only [enrichOne, if_pos hc, ho, if_pos h200])
        | ok oa? =>
          cases oa? with
          | none =>
            exact Or.inl (by simp only [enrichOne, if_pos hc, ho, if_pos h200])
          | some oa =>
            by_cases hoa : oa = []
            · exact Or.inl
                (by simp only [enrichOne, if_pos hc, ho, if_pos h200, if_pos hoa])
            · refine Or.inr ⟨oa, hc, by rw [h200], hoa, ?_⟩
              simp only [enrichOne, if_pos hc, ho, if_pos h200, if_neg hoa]
      · exact Or.inl (by simp only [enrichOne, if_pos hc, ho, if_neg h200])
  · exact Or.inl (by simp only [enrichOne, if_neg hc])

/-- One enrichment step changes no field other than the link. -/
theorem enrichOne_fields (oracle : List Char → UnpaywallOutcome) (s : Scored) :
    (enrichOne oracle s).cand.title = s.cand.title ∧
    (enrichOne oracle s).cand.authors = s.cand.authors ∧
    (enrichOne oracle s).cand.publish_date = s.cand.publish_date ∧
    (enrichOne oracle s).cand.full_text = s.cand.full_text ∧
    (enrichOne oracle s).relevance_score = s.relevance_score := by
  rcases enrichOne_cases oracle s with he | ⟨oa, _, _, _, he⟩ <;> rw [he] <;>
    exact ⟨rfl, rfl, rfl, rfl, rfl⟩

/-- C9: `unpaywall_enrich` returns a list of the same length, applying the
per-candidate enrichment step in order (so it never removes a candidate
and never raises); that step leaves every field other than the link
unchanged, and it changes the link only for an arxiv-looking link with
a non-empty extracted identifier whose open-access lookup returns
HTTP 200 carrying a non-empty resolvable PDF URL — on any failure the
original link is left untouched. -/
theorem unpaywall_enrich_spec (oracle : List Char → UnpaywallOutcome) (l : List Scored) :
    (unpaywall_enrich oracle l).length = l.length ∧
    unpaywall_enrich oracle l = l.map (enrichOne oracle) ∧
    ∀ s : Scored,
      ((enrichOne oracle s).cand.title = s.cand.title ∧
       (enrichOne oracle s).cand.authors = s.cand.authors ∧
       (enrichOne oracle s).cand.publish_date = s.cand.publish_date ∧
       (enrichOne oracle s).cand.full_text = s.cand.full_text ∧
       (enrichOne oracle s).relevance_score = s.relevance_score) ∧
      ((enrichOne oracle s).cand.link ≠ s.cand.link →
        (("arxiv").toList <:+: s.cand.link ∧ afterLastAbs s.cand.link ≠ []) ∧
        ∃ oa, oracle (afterLastAbs s.cand.link) = .status 200 (.ok (some oa)) ∧
          oa ≠ [] ∧ (enrichOne oracle s).cand.link = oa) := by
  refine ⟨by simp [unpaywall_enrich], rfl, fun s => ⟨enrichOne_fields oracle s, ?_⟩⟩
  intro hne
  rcases enrichOne_cases oracle s with he | ⟨oa, hc, ho, hoa, he⟩
  · exact absurd (by rw [he]) hne
  · exact ⟨hc, oa, ho, hoa, by rw [he]⟩

/-- Witness for C9 at a concrete input: the arxiv-linked sample candidate
with the always-resolving oracle has its link changed, and the theorem
recovers the successful-lookup conditions. -/
theorem unpaywall_enrich_spec_witness :
    (("arxiv").toList <:+: sampleArxiv.cand.link ∧
      afterLastAbs sampleArxiv.cand.link ≠ []) ∧
    ∃ oa, sampleOracle (afterLastAbs sampleArxiv.cand.link)
        = .status 200 (.ok (some oa)) ∧
      oa ≠ [] ∧ (enrichOne sampleOracle sampleArxiv).cand.link = oa :=
  ((unpaywall_enrich_spec sampleOracle [sampleArxiv]).2.2 sampleArxiv).2 (by decide)

/-! Helper lemmas for the backup-superset invariant. -/

/-- A recent candidate is not in the older pool. -/
theorem not_isOlder_of_isRecent {now : Int} {s : Scored}
    (h : isRecent now s = true) : isOlder now s = false := by
  unfold isRecent at h
  unfold isOlder
  cases hd : s.cand.publish_date with
  | none => rfl
  | some d =>
    rw [hd] at h
    simp only [decide_eq_true_eq] at h
    simp only [decide_eq_false_iff_not]
    omega

/-- The two selection pools are disjoint, so their sizes add up to at most
the unique list's size. -/
theorem length_filter_recent_older (now : Int) :
    ∀ unique : List Scored,
      (unique.filter (isRecent now)).length + (unique.filter (isOlder now)).length
        ≤ unique.length
  | [] => by simp
  | a :: rest => by
    have ih := length_filter_recent_older now rest
    rw [List.filter_cons, List.filter_cons]
    by_cases hr : isRecent now a = true
    · rw [if_pos (by simp [hr]), if_neg (by simp [not_isOlder_of_isRecent hr])]
      simp only [List.length_cons]
      omega
    · rw [if_neg (by simp [hr])]
      by_cases ho : isOlder now a = true
      · rw [if_pos (by simp [ho])]
        simp only [List.length_cons]
        omega
      · rw [if_neg (by simp [ho])]
        simp only [List.length_cons]
        omega

/-- The selection never outgrows the unique list. -/
theorem weeklySelect_length_le (unique : List Scored) (now : Int) :
    (weeklySelect unique now).length ≤ unique.length := by
  simp only [weeklySelect]
  by_cases h : (unique.filter (isRecent now)).length < 50
  · rw [if_pos h, List.length_append, List.length_take, length_sortDesc]
    have h2 := length_filter_recent_older now unique
    omega
  · rw [if_neg h, List.length_take]
    have h2 := List.length_filter_le (isRecent now) unique
    omega

/-- Counterexample to C4 as stated: with a lookup oracle that resolves an
open-access PDF, the returned record's link has been replaced after the
backup was written, so its `(title, link)` key is absent from the
backup set. -/
theorem backup_key_counterexample :
    ¬ (∀ r ∈ (weekly_core sampleOracle
          [⟨('T' :: []), [], some 1000, ("http://arxiv.org/abs/1").toList, []⟩]
          1000).returned,
        (r.cand.title, r.cand.link) ∈
          (weekly_core sampleOracle
            [⟨('T' :: []), [], some 1000, ("http://arxiv.org/abs/1").toList, []⟩]
            1000).backup.map (fun b => (b.cand.title, b.cand.link))) := by
  decide

/-- C4 as amended: the backup holds the full deduplicated scored set,
written before recency filtering, so its candidate count is at least
the returned selection's count; and every returned record stems from a
backup record agreeing with it on title, authors, publish date, full
text and score — its `(title, link)` key matches the backup's except
when the link enricher replaced the link. -/
theorem backup_superset_amended (oracle : List Char → UnpaywallOutcome)
    (all_articles : List Candidate) (now : Int) :
    (weekly_core oracle all_articles now).returned.length
        ≤ (weekly_core oracle all_articles now).backup.length ∧
    ∀ r ∈ (weekly_core oracle all_articles now).returned,
      ∃ b ∈ (weekly_core oracle all_articles now).backup,
        b.cand.title = r.cand.title ∧ b.cand.authors = r.cand.authors ∧
        b.cand.publish_date = r.cand.publish_date ∧
        b.cand.full_text = r.cand.full_text ∧
        b.relevance_score = r.relevance_score ∧ r = enrichOne oracle b := by
  constructor
  · simp only [weekly_core, unpaywall_enrich, List.length_map]
    exact le_trans (weeklySelect_length_le _ now) (le_of_eq (List.length_map _ _))
  · intro r hr
    simp only [weekly_core, unpaywall_enrich] at hr ⊢
    obtain ⟨s, hs, rfl⟩ := List.mem_map.mp hr
    refine ⟨s, ?_, ?_⟩
    · rcases mem_weeklySelect _ now s hs with h | h
      · exact (List.mem_filter.mp h).1
      · exact (List.mem_filter.mp h).1
    · obtain ⟨h1, h2, h3, h4, h5⟩ := enrichOne_fields oracle s
      exact ⟨h1.symm, h2.symm, h3.symm, h4.symm, h5.symm, rfl⟩

/-- Witness for the amended C4 at a concrete input: the enriched returned
record stems from the backup record holding the original arxiv link. -/
theorem backup_superset_amended_witness :
    ∃ b ∈ (weekly_core sampleOracle
        [⟨('T' :: []), [], some 1000, ("http://arxiv.org/abs/1").toList, []⟩]
        1000).backup,
      b.cand.title = ('T' :: []) ∧ b.cand.authors = [] ∧
      b.cand.publish_date = some 1000 ∧ b.cand.full_text = [] ∧
      b.relevance_score = 0 ∧
      (⟨⟨('T' :: []), [], some 1000, ("http://x/pdf").toList, []⟩, 0⟩ : Scored)
          = enrichOne sampleOracle b := by
  have h := (backup_superset_amended sampleOracle
    [⟨('T' :: []), [], some 1000, ("http://arxiv.org/abs/1").toList, []⟩] 1000).2
    ⟨⟨('T' :: []), [], some 1000, ("http://x/pdf").toList, []⟩, 0⟩ (by decide)
  exact h
